import Mathlib

/-!
Feature-matching pipeline of `main.cpp`.

A shallow embedding of `ratio_test` and of the per-sample loop of `main` from
`src/main.cpp`, followed by the statements proved about them.

Conventions of the embedding:

* `float` and `double` values (match distances, the ratio, pixel coordinates,
  areas) are exact rationals `ℚ`; rounding, infinities and NaN are not modelled.
* `int` fields are `Int`; `std::vector` is `List`; an empty `cv::Mat` returned by
  a library call is `none`.
* library routines of OpenCV whose result the program only consumes
  (`knnMatch`, `findHomography`, `perspectiveTransform`, `getTextSize`, `imread`,
  `detectAndCompute`) are fields of a `World` record, so every statement holds
  for every behaviour of those routines.
-/

namespace Vir

/-! ## Data model -/

/-- `cv::DMatch`: query index, train index, image index and distance. -/
structure DMatch where
  queryIdx : Int
  trainIdx : Int
  imgIdx : Int
  distance : ℚ
  deriving DecidableEq, Repr

/-! ## `ratio_test` (main.cpp, lines 14-23) -/

/-- The `for` loop of lines 17-21 started at index `i` with the accumulator
`good_matches`: while `i < matches12.size()`, test entry `i` with the
short-circuit condition of line 19 (`size() >= 2 && [0].distance < ratio *
[1].distance`, the two elements being read only when they exist), push its
first element on success, and increment `i`. -/
def ratio_test_loop (matches12 : List (List DMatch)) (ratio : ℚ)
    (i : Nat) (good_matches : List DMatch) : List DMatch :=
  if h : i < matches12.length then
    if h2 : 2 ≤ (matches12.get ⟨i, h⟩).length then
      if ((matches12.get ⟨i, h⟩).get ⟨0, by omega⟩).distance
          < ratio * ((matches12.get ⟨i, h⟩).get ⟨1, by omega⟩).distance then
        ratio_test_loop matches12 ratio (i + 1)
          (good_matches ++ [(matches12.get ⟨i, h⟩).get ⟨0, by omega⟩])
      else
        ratio_test_loop matches12 ratio (i + 1) good_matches
    else
      ratio_test_loop matches12 ratio (i + 1) good_matches
  else good_matches
termination_by matches12.length - i

/-- `ratio_test(matches12, ratio)`: the loop run from `i = 0` on an empty
`good_matches`, whose final value is returned. -/
def ratio_test (matches12 : List (List DMatch)) (ratio : ℚ) : List DMatch :=
  ratio_test_loop matches12 ratio 0 []

/-! ## Specification-side description of the filter -/

/-- What the specification says about one entry: with at least two candidates
and `best.distance < ratio * secondBest.distance` the best candidate is kept,
otherwise nothing is. -/
def keepBest (ratio : ℚ) : List DMatch → Option DMatch
  | best :: secondBest :: _ =>
    if best.distance < ratio * secondBest.distance then some best else none
  | _ => none

/-- The filter as the specification words it: walk the entries in input order
and keep the best candidate of exactly the accepted ones. -/
def ratio_test_spec (ms : List (List DMatch)) (ratio : ℚ) : List DMatch :=
  ms.filterMap (keepBest ratio)

/-- Query index an entry carries: the `queryIdx` of its first candidate, when it
has one (`knnMatch` gives all candidates of an entry the same `queryIdx`). -/
def entryQueryIdx (e : List DMatch) : Option Int :=
  e.head?.map DMatch.queryIdx

/-- All candidate distances of the input are non-negative. -/
def NonnegDistances (ms : List (List DMatch)) : Prop :=
  ∀ e ∈ ms, ∀ c ∈ e, 0 ≤ c.distance

/-! ## Data of `main` -/

/-- `cv::Point2f`. -/
structure Point2f where
  x : ℚ
  y : ℚ
  deriving DecidableEq, Repr

/-- `operator+=` of `cv::Point2f`, componentwise. -/
def Point2f.add (p q : Point2f) : Point2f := ⟨p.x + q.x, p.y + q.y⟩

/-- `operator-` of `cv::Point2f`, componentwise. -/
def Point2f.sub (p q : Point2f) : Point2f := ⟨p.x - q.x, p.y - q.y⟩

/-- `operator*=` of `cv::Point2f` with a scalar. -/
def Point2f.scale (p : Point2f) (k : ℚ) : Point2f := ⟨p.x * k, p.y * k⟩

/-- `cv::KeyPoint`; only the location `pt` is read by the program. -/
structure KeyPoint where
  pt : Point2f
  deriving DecidableEq, Repr

/-- Descriptor matrix (`cv::Mat`), one row per keypoint; `empty()` holds exactly
when there is no row. -/
abbrev Descriptors := List (List ℚ)

/-- Non-empty image matrix (`cv::Mat`); only its dimensions are read. -/
structure Image where
  cols : Int
  rows : Int
  deriving DecidableEq, Repr

/-- `struct SampleData` (lines 6-12). -/
structure SampleData where
  name : String
  image : Image
  keypoints : List KeyPoint
  descriptors : Descriptors
  deriving DecidableEq, Repr

/-- The 3x3 matrix returned by `cv::findHomography`, row by row. -/
abbrev Homography := List (List ℚ)

/-- Drawing done on `imgMatches`: `cv::line` (line 138, green, thickness 3) and
`cv::putText` (line 149, red, scale 0.7, thickness 2).  The points are kept as
the `Point2f` values the program passes. -/
inductive DrawCmd where
  | line (p q : Point2f)
  | putText (text : String) (org : Point2f)
  deriving DecidableEq, Repr

/-- Lines written to `std::cout`. -/
inductive Msg where
  | dirMissing (path : String)
  | failedSample (path : String)
  | parsedSample (path : String) (keypoints : Nat)
  | noSamples
  | failedTarget
  | targetKeypoints (n : Nat)
  | skipping (name : String)
  | initialMatches (name : String) (n : Nat)
  | goodMatches (name : String) (n : Nat)
  | notEnough (name : String)
  | homographyFailed (name : String)
  | area (name : String) (area : ℚ)
  | areaTooSmall (name : String)
  | noMatchesFound
  deriving DecidableEq, Repr

/-- Observable events of a run, in program order: console output and the calls
made to the library (drawing calls are recorded in `imgMatches` instead). -/
inductive Event where
  | out (m : Msg)
  | imread (path : String)
  | detectAndCompute (img : Image)
  | knnMatch (query train : Descriptors)
  | findHomography (src dst : List Point2f)
  | perspectiveTransform (src : List Point2f) (H : Homography)
  | contourArea (contour : List Point2f)
  | getTextSize (text : String)
  | imshow (drawn : List DrawCmd)
  | waitKey
  deriving DecidableEq, Repr

/-- One entry produced by `fs::recursive_directory_iterator`. -/
structure DirEntry where
  path : String
  extension : String
  stem : String
  deriving DecidableEq, Repr

/-- The file system and the OpenCV routines the program calls, left arbitrary.
`imread` and `findHomography` return `none` for an empty `cv::Mat`;
`projectPoint H` is the map `cv::perspectiveTransform` applies to each point;
`getTextSize` returns `(width, height)`. -/
structure World where
  dirExists : Bool
  dirEntries : List DirEntry
  imread : String → Option Image
  detectAndCompute : Image → List KeyPoint × Descriptors
  knnMatch : Descriptors → Descriptors → List (List DMatch)
  findHomography : List Point2f → List Point2f → Option Homography
  projectPoint : Homography → Point2f → Point2f
  getTextSize : String → Int × Int

/-- Variables of `main` that the sample loop updates: the image being drawn on
(as the list of drawings made over the clone of the target), the flag
`any_matches`, and the events so far. -/
structure LoopState where
  imgMatches : List DrawCmd
  any_matches : Bool
  trace : List Event
  deriving DecidableEq, Repr

/-- Result of `main`: the returned status and the events of the run. -/
structure MainResult where
  status : Int
  trace : List Event
  deriving DecidableEq, Repr

/-! ## Library routines with a fixed meaning -/

/-- `cv::perspectiveTransform(src, dst, H)`: one output point per input point. -/
def perspectiveTransform (w : World) (src : List Point2f) (H : Homography) :
    List Point2f :=
  src.map (w.projectPoint H)

/-- Accumulation of `cv::contourArea`: the sum of `prev.x * p.y - prev.y * p.x`
over consecutive points, `prev` being the point before `p`. -/
def contourAreaSum : Point2f → List Point2f → ℚ
  | _, [] => 0
  | prev, p :: ps => (prev.x * p.y - prev.y * p.x) + contourAreaSum p ps

/-- Modelled from the spec: `cv::contourArea` is an OpenCV routine whose code is
not part of the sources; the specification describes it as the polygon's signed,
then absolute, area.  It is the shoelace sum started from the last point, halved,
in absolute value, and 0 for an empty contour. -/
def contourArea (contour : List Point2f) : ℚ :=
  match contour.getLast? with
  | none => 0
  | some last => |contourAreaSum last contour * (1 / 2)|

/-! ## `main` (main.cpp, lines 25-163) -/

/-- `keypoints[idx].pt` for an `int` index.  An index outside the vector is
undefined behaviour in the program; here it reads the point `(0, 0)`. -/
def keypointAt (keypoints : List KeyPoint) (idx : Int) : Point2f :=
  if 0 ≤ idx then (keypoints.getD idx.toNat ⟨⟨0, 0⟩⟩).pt else ⟨0, 0⟩

/-- The four corners of the sample image (line 123). -/
def corners_sample (sample : SampleData) : List Point2f :=
  [⟨0, 0⟩, ⟨sample.image.cols, 0⟩, ⟨sample.image.cols, sample.image.rows⟩,
    ⟨0, sample.image.rows⟩]

/-- The four `cv::line` calls of lines 136-139: corner `i` to corner
`(i + 1) % 4` for `i = 0, 1, 2, 3`. -/
def drawQuad (corners_target : List Point2f) : List DrawCmd :=
  (List.range 4).map fun i =>
    DrawCmd.line (corners_target.getD i ⟨0, 0⟩) (corners_target.getD ((i + 1) % 4) ⟨0, 0⟩)

/-- Lines 141-144: `center` starts at `(0, 0)`, every point is added to it, and
it is multiplied by `1.0 / corners_target.size()`. -/
def center (corners_target : List Point2f) : Point2f :=
  (corners_target.foldl Point2f.add ⟨0, 0⟩).scale (1 / (corners_target.length : ℚ))

/-- Lines 146-148: the text position, `center` minus half the text size. -/
def text_pos (w : World) (name : String) (corners_target : List Point2f) : Point2f :=
  (center corners_target).sub
    ⟨((w.getTextSize name).1 : ℚ) / 2, ((w.getTextSize name).2 : ℚ) / 2⟩

/-- Body of the sample loop (lines 86-151) for one `sample`, from the state
`st`; each `continue` returns the state reached at that point. -/
def processSample (w : World) (targetKeypoints : List KeyPoint)
    (targetDescriptors : Descriptors) (st : LoopState) (sample : SampleData) :
    LoopState :=
  if sample.descriptors.isEmpty || targetDescriptors.isEmpty then
    { st with trace := st.trace ++ [.out (.skipping sample.name)] }
  else
    let matches12 := w.knnMatch sample.descriptors targetDescriptors
    let good_matches := ratio_test matches12 (3 / 4)
    let tr1 := st.trace ++
      [.knnMatch sample.descriptors targetDescriptors,
       .out (.initialMatches sample.name matches12.length),
       .out (.goodMatches sample.name good_matches.length)]
    if good_matches.length < 4 then
      { st with trace := tr1 ++ [.out (.notEnough sample.name)] }
    else
      let points_sample := good_matches.map fun m => keypointAt sample.keypoints m.queryIdx
      let points_target := good_matches.map fun m => keypointAt targetKeypoints m.trainIdx
      match w.findHomography points_sample points_target with
      | none =>
        { st with trace := tr1 ++
            [.findHomography points_sample points_target,
             .out (.homographyFailed sample.name)] }
      | some H =>
        let corners_target := perspectiveTransform w (corners_sample sample) H
        let area := contourArea corners_target
        let tr2 := tr1 ++
          [.findHomography points_sample points_target,
           .perspectiveTransform (corners_sample sample) H,
           .contourArea corners_target,
           .out (.area sample.name area)]
        if area < 1000 then
          { st with trace := tr2 ++ [.out (.areaTooSmall sample.name)] }
        else
          { imgMatches := st.imgMatches ++ drawQuad corners_target ++
              [.putText sample.name (text_pos w sample.name corners_target)]
            any_matches := true
            trace := tr2 ++ [.getTextSize sample.name] }

/-- The loop `for (auto &sample : samples)` of lines 85-152. -/
def processSamples (w : World) (targetKeypoints : List KeyPoint)
    (targetDescriptors : Descriptors) : List SampleData → LoopState → LoopState
  | [], st => st
  | sample :: rest, st =>
    processSamples w targetKeypoints targetDescriptors rest
      (processSample w targetKeypoints targetDescriptors st sample)

/-- The directory scan of lines 39-58: every entry with extension `.png` is
read; an unreadable one is reported and skipped, the others get their features
computed and are appended to `samples`. -/
def loadSamples (w : World) :
    List DirEntry → List SampleData → List Event → List SampleData × List Event
  | [], samples, tr => (samples, tr)
  | p :: ps, samples, tr =>
    if p.extension = ".png" then
      match w.imread p.path with
      | none =>
        loadSamples w ps samples (tr ++ [.imread p.path, .out (.failedSample p.path)])
      | some image =>
        let data : SampleData :=
          ⟨p.stem, image, (w.detectAndCompute image).1, (w.detectAndCompute image).2⟩
        loadSamples w ps (samples ++ [data])
          (tr ++ [.imread p.path, .detectAndCompute image,
                  .out (.parsedSample p.path data.keypoints.length)])
    else loadSamples w ps samples tr

/-- State of the sample loop on entry (lines 79-83): nothing drawn on the clone
of the target, `any_matches = false`. -/
def initialState (tr : List Event) : LoopState := ⟨[], false, tr⟩

/-- `main`: status `-1` when the directory is missing, no sample was loaded or
the target cannot be read; otherwise the sample loop runs, the result is shown
and the status is `0`. -/
def main (w : World) : MainResult :=
  if !w.dirExists then ⟨-1, [.out (.dirMissing "./cards")]⟩
  else
    let loaded := loadSamples w w.dirEntries [] []
    if loaded.1.isEmpty then ⟨-1, loaded.2 ++ [.out .noSamples]⟩
    else
      match w.imread "./target.png" with
      | none => ⟨-1, loaded.2 ++ [.imread "./target.png", .out .failedTarget]⟩
      | some target =>
        let targetKeypoints := (w.detectAndCompute target).1
        let targetDescriptors := (w.detectAndCompute target).2
        let st := processSamples w targetKeypoints targetDescriptors loaded.1
          (initialState (loaded.2 ++
            [.imread "./target.png", .detectAndCompute target,
             .out (.targetKeypoints targetKeypoints.length)]))
        let tr := if !st.any_matches then st.trace ++ [.out .noMatchesFound] else st.trace
        ⟨0, tr ++ [.imshow st.imgMatches, .waitKey]⟩

/-! ## Quantities named in the statements -/

/-- The filtered match list of a sample: `ratio_test` with ratio 0.75 applied to
the matcher's output for the sample against the target (lines 94 and 98). -/
def good_matches_of (w : World) (targetDescriptors : Descriptors)
    (sample : SampleData) : List DMatch :=
  ratio_test (w.knnMatch sample.descriptors targetDescriptors) (3 / 4)

/-- The result of the `cv::findHomography` call of line 115 for a sample. -/
def homography_of (w : World) (targetKeypoints : List KeyPoint)
    (targetDescriptors : Descriptors) (sample : SampleData) : Option Homography :=
  w.findHomography
    ((good_matches_of w targetDescriptors sample).map fun m =>
      keypointAt sample.keypoints m.queryIdx)
    ((good_matches_of w targetDescriptors sample).map fun m =>
      keypointAt targetKeypoints m.trainIdx)

/-- Events of an iteration that ends at one of the first two `continue`
statements (lines 90 and 105). -/
def skipEvents (w : World) (targetDescriptors : Descriptors) (sample : SampleData) :
    List Event :=
  if sample.descriptors.isEmpty || targetDescriptors.isEmpty then
    [.out (.skipping sample.name)]
  else
    [.knnMatch sample.descriptors targetDescriptors,
     .out (.initialMatches sample.name
       (w.knnMatch sample.descriptors targetDescriptors).length),
     .out (.goodMatches sample.name (good_matches_of w targetDescriptors sample).length),
     .out (.notEnough sample.name)]

/-- A world with one sample `a` of 40 x 25 pixels, a readable target, four
unambiguous matches, the identity as fitted transform and a 20 x 10 text box. -/
def demoWorld : World where
  dirExists := true
  dirEntries := [⟨"./cards/a.png", ".png", "a"⟩]
  imread := fun path => if path = "./target.png" then some ⟨100, 100⟩ else some ⟨40, 25⟩
  detectAndCompute := fun _ => ([⟨⟨1, 1⟩⟩, ⟨⟨2, 5⟩⟩, ⟨⟨7, 3⟩⟩, ⟨⟨4, 9⟩⟩], [[0], [1], [2], [3]])
  knnMatch := fun _ _ =>
    [[⟨0, 0, 0, 1⟩, ⟨0, 1, 0, 2⟩], [⟨1, 1, 0, 1⟩, ⟨1, 2, 0, 2⟩],
     [⟨2, 2, 0, 1⟩, ⟨2, 3, 0, 2⟩], [⟨3, 3, 0, 1⟩, ⟨3, 0, 0, 2⟩]]
  findHomography := fun _ _ => some [[1, 0, 0], [0, 1, 0], [0, 0, 1]]
  projectPoint := fun _ p => p
  getTextSize := fun _ => (20, 10)

/-- The sample of `demoWorld`. -/
def demoSample : SampleData :=
  ⟨"a", ⟨40, 25⟩, [⟨⟨1, 1⟩⟩, ⟨⟨2, 5⟩⟩, ⟨⟨7, 3⟩⟩, ⟨⟨4, 9⟩⟩], [[0], [1], [2], [3]]⟩

/-- The world `demoWorld` with a matcher whose candidates are all ambiguous
(equal distances), so that no match survives the ratio test. -/
def ambiguousWorld : World :=
  { demoWorld with
    knnMatch := fun _ _ =>
      [[⟨0, 0, 0, 1⟩, ⟨0, 1, 0, 1⟩], [⟨1, 1, 0, 1⟩, ⟨1, 2, 0, 1⟩],
       [⟨2, 2, 0, 1⟩, ⟨2, 3, 0, 1⟩], [⟨3, 3, 0, 1⟩, ⟨3, 0, 0, 1⟩]] }

/-! ## Auxiliary lemmas on `ratio_test` -/

theorem keepBest_of_short (ratio : ℚ) (e : List DMatch) (h : e.length < 2) :
    keepBest ratio e = none := by
  match e, h with
  | [], _ => rfl
  | [_], _ => rfl

theorem keepBest_of_long (ratio : ℚ) (e : List DMatch) (h : 2 ≤ e.length) :
    keepBest ratio e =
      if (e.get ⟨0, by omega⟩).distance < ratio * (e.get ⟨1, by omega⟩).distance
      then some (e.get ⟨0, by omega⟩) else none := by
  match e, h with
  | _ :: _ :: _, _ => simp [keepBest]

theorem ratio_test_loop_eq (ms : List (List DMatch)) (ratio : ℚ) :
    ∀ (n i : Nat) (acc : List DMatch), ms.length - i = n →
      ratio_test_loop ms ratio i acc = acc ++ ratio_test_spec (ms.drop i) ratio := by
  intro n
  induction n with
  | zero =>
    intro i acc hn
    have hi : ¬ i < ms.length := by omega
    rw [ratio_test_loop, dif_neg hi, List.drop_of_length_le (by omega)]
    simp [ratio_test_spec]
  | succ n ih =>
    intro i acc hn
    have hi : i < ms.length := by omega
    have hdrop : ms.drop i = ms.get ⟨i, hi⟩ :: ms.drop (i + 1) :=
      List.drop_eq_getElem_cons hi
    rw [ratio_test_loop, dif_pos hi, hdrop, ratio_test_spec, List.filterMap_cons]
    by_cases h2 : 2 ≤ (ms.get ⟨i, hi⟩).length
    · rw [dif_pos h2, keepBest_of_long ratio _ h2]
      split
      · rw [ih (i + 1) _ (by omega)]
        simp [ratio_test_spec]
      · rw [ih (i + 1) _ (by omega)]
        simp [ratio_test_spec]
    · rw [dif_neg h2, keepBest_of_short ratio _ (by omega), ih (i + 1) _ (by omega)]
      simp [ratio_test_spec]

theorem ratio_test_eq_filterMap (ms : List (List DMatch)) (ratio : ℚ) :
    ratio_test ms ratio = ms.filterMap (keepBest ratio) := by
  have h := ratio_test_loop_eq ms ratio (ms.length - 0) 0 [] rfl
  simpa [ratio_test, ratio_test_spec] using h

theorem ratio_test_nil (ratio : ℚ) : ratio_test [] ratio = [] := by
  simp [ratio_test_eq_filterMap]

theorem ratio_test_append (xs ys : List (List DMatch)) (ratio : ℚ) :
    ratio_test (xs ++ ys) ratio = ratio_test xs ratio ++ ratio_test ys ratio := by
  simp [ratio_test_eq_filterMap]

theorem ratio_test_cons (e : List DMatch) (ms : List (List DMatch)) (ratio : ℚ) :
    ratio_test (e :: ms) ratio
      = (keepBest ratio e).toList ++ ratio_test ms ratio := by
  rw [ratio_test_eq_filterMap, ratio_test_eq_filterMap, List.filterMap_cons]
  cases keepBest ratio e <;> simp

theorem keepBest_eq_some {ratio : ℚ} {e : List DMatch} {m : DMatch}
    (h : keepBest ratio e = some m) :
    ∃ b rest, e = m :: b :: rest ∧ m.distance < ratio * b.distance := by
  match e with
  | [] => simp [keepBest] at h
  | [_] => simp [keepBest] at h
  | a :: b :: rest =>
    by_cases hc : a.distance < ratio * b.distance
    · simp [keepBest, hc] at h
      exact ⟨b, rest, by rw [h], h ▸ hc⟩
    · simp [keepBest, hc] at h

theorem mem_ratio_test {ms : List (List DMatch)} {ratio : ℚ} {m : DMatch}
    (h : m ∈ ratio_test ms ratio) :
    ∃ e ∈ ms, ∃ b rest, e = m :: b :: rest ∧ m.distance < ratio * b.distance := by
  rw [ratio_test_eq_filterMap, List.mem_filterMap] at h
  obtain ⟨e, he, hk⟩ := h
  exact ⟨e, he, keepBest_eq_some hk⟩

/-! ## The correspondence filter -/

/-- C1: for every input `ms` and ratio `r`, `ratio_test ms r` is the list obtained
by walking `ms` in input order and keeping the first candidate of exactly the
entries with at least two candidates whose first distance is strictly below `r`
times the second; nothing else is added, and the kept matches are an
order-preserving subsequence of the first candidates of the entries of `ms`. -/
theorem ratio_test_eq_spec (ms : List (List DMatch)) (r : ℚ) :
    ratio_test ms r = ratio_test_spec ms r
      ∧ (ratio_test ms r).Sublist (ms.filterMap List.head?) := by
  refine ⟨ratio_test_eq_filterMap ms r, ?_⟩
  rw [ratio_test_eq_filterMap]
  induction ms with
  | nil => simp
  | cons e ms ih =>
    match e with
    | [] => simpa [keepBest] using ih
    | [a] => simpa [keepBest] using ih.cons a
    | a :: b :: rest =>
      by_cases hc : a.distance < r * b.distance
      · simpa [keepBest, hc] using ih
      · simpa [keepBest, hc] using ih.cons a

/-- C2: entries with fewer than two candidates are discarded by `ratio_test`:
deleting them all from the input leaves the output unchanged; when such an entry
is the only entry carrying its query index, no output match has that query
index; and when every entry has fewer than two candidates the output is empty. -/
theorem ratio_test_discards_short (ms : List (List DMatch)) (r : ℚ) :
    ratio_test (ms.filter (fun e => decide (2 ≤ e.length))) r = ratio_test ms r
      ∧ (∀ (pre post : List (List DMatch)) (e : List DMatch) (q : Int),
          ms = pre ++ e :: post → e.length < 2 → entryQueryIdx e = some q →
          (∀ e' ∈ pre ++ post, entryQueryIdx e' ≠ some q) →
          ∀ m ∈ ratio_test ms r, m.queryIdx ≠ q)
      ∧ ((∀ e ∈ ms, e.length < 2) → ratio_test ms r = []) := by
  refine ⟨?_, ?_, ?_⟩
  · rw [ratio_test_eq_filterMap, ratio_test_eq_filterMap]
    induction ms with
    | nil => rfl
    | cons e ms ih =>
      by_cases h2 : 2 ≤ e.length
      · simp [List.filter_cons, h2, List.filterMap_cons, ih]
      · simp [List.filter_cons, h2, List.filterMap_cons, ih,
          keepBest_of_short r e (by omega)]
  · intro pre post e q hms hlen _ hothers m hm hq
    subst hms
    rw [ratio_test_append, ratio_test_cons, keepBest_of_short r e hlen] at hm
    simp only [Option.toList, List.nil_append, ← ratio_test_append] at hm
    obtain ⟨e', he', b, rest, heq, _⟩ := mem_ratio_test hm
    apply hothers e' he'
    simp [entryQueryIdx, heq, hq]
  · intro hall
    rw [ratio_test_eq_filterMap, List.filterMap_eq_nil_iff]
    intro e he
    exact keepBest_of_short r e (hall e he)

/-- Witness for C2 on the input `[[m], [a, b]]`, whose first entry has a single
candidate with query index 0, and on `[[m], []]`. -/
theorem ratio_test_discards_short_witness :
    ratio_test ([[⟨0, 3, 0, 1⟩], [⟨1, 4, 0, 2⟩, ⟨1, 5, 0, 8⟩]].filter
        (fun e => decide (2 ≤ e.length))) (3 / 4)
        = ratio_test [[⟨0, 3, 0, 1⟩], [⟨1, 4, 0, 2⟩, ⟨1, 5, 0, 8⟩]] (3 / 4)
      ∧ (∀ m ∈ ratio_test [[⟨0, 3, 0, 1⟩], [⟨1, 4, 0, 2⟩, ⟨1, 5, 0, 8⟩]] (3 / 4),
          m.queryIdx ≠ 0)
      ∧ ratio_test [[⟨0, 3, 0, 1⟩], []] (3 / 4) = [] :=
  ⟨(ratio_test_discards_short _ _).1,
   (ratio_test_discards_short _ _).2.1 [] [[⟨1, 4, 0, 2⟩, ⟨1, 5, 0, 8⟩]]
      [⟨0, 3, 0, 1⟩] 0 rfl (by decide) rfl (by simp [entryQueryIdx]),
   (ratio_test_discards_short _ _).2.2 (by simp)⟩

/-- C3: the ratio test is strict at the boundary: an entry with at least two
candidates whose best distance equals `ratio` times the second-best distance
contributes nothing to the output, wherever it stands in the input. -/
theorem ratio_test_boundary_rejected (pre post : List (List DMatch))
    (a b : DMatch) (rest : List DMatch) (ratio : ℚ)
    (h : a.distance = ratio * b.distance) :
    ratio_test (pre ++ (a :: b :: rest) :: post) ratio
      = ratio_test pre ratio ++ ratio_test post ratio := by
  rw [ratio_test_append, ratio_test_cons]
  simp [keepBest, h]

/-- Witness for C3: distances `[7.5, 10]` with ratio 0.75 sit exactly on the
boundary and the entry is rejected. -/
theorem ratio_test_boundary_rejected_witness :
    (15 / 2 : ℚ) = 3 / 4 * 10
      ∧ ratio_test [[⟨0, 0, 0, 15 / 2⟩, ⟨0, 1, 0, 10⟩]] (3 / 4) = [] :=
  ⟨by norm_num, by
    simpa [ratio_test_nil] using
      ratio_test_boundary_rejected [] [] ⟨0, 0, 0, 15 / 2⟩ ⟨0, 1, 0, 10⟩ [] (3 / 4)
        (by norm_num)⟩

/-- C4 (as amended): with ratio 0.75 a single entry with candidate distances
`[5, 10]` is accepted, and so is a single entry with distances `[5, 7]`
(`5 < 5.25`); in both cases the output is exactly the entry's best candidate. -/
theorem ratio_test_examples_accept (q t g q' t' g' : Int) :
    ratio_test [[⟨q, t, g, 5⟩, ⟨q', t', g', 10⟩]] (3 / 4) = [⟨q, t, g, 5⟩]
      ∧ ratio_test [[⟨q, t, g, 5⟩, ⟨q', t', g', 7⟩]] (3 / 4) = [⟨q, t, g, 5⟩] := by
  constructor <;>
  · rw [ratio_test_cons, ratio_test_nil]
    norm_num [keepBest]

/-- C4 (as stated) fails: with ratio 0.75 the single entry with candidate
distances `[5, 7]` is not rejected, the output is not empty. -/
theorem ratio_test_five_seven_not_rejected :
    ratio_test [[⟨0, 0, 0, 5⟩, ⟨0, 1, 0, 7⟩]] (3 / 4) ≠ [] := by
  rw [ratio_test_cons, ratio_test_nil]
  norm_num [keepBest]

/-- C9: on non-negative distances `ratio_test` is monotone in the ratio: for
`r1 ≤ r2` the output at `r1` is an order-preserving subsequence of the output at
`r2`; with a negative distance in the input this can fail. -/
theorem ratio_test_mono_ratio :
    (∀ (ms : List (List DMatch)) (r1 r2 : ℚ), NonnegDistances ms → r1 ≤ r2 →
        (ratio_test ms r1).Sublist (ratio_test ms r2))
      ∧ (∃ (ms : List (List DMatch)) (r1 r2 : ℚ), r1 ≤ r2 ∧
          ¬ (ratio_test ms r1).Sublist (ratio_test ms r2)) := by
  constructor
  · intro ms r1 r2 hnn hle
    rw [ratio_test_eq_filterMap, ratio_test_eq_filterMap]
    induction ms with
    | nil => simp
    | cons e ms ih =>
      have ih' := ih (fun e' he' => hnn e' (List.mem_cons_of_mem _ he'))
      match e, hnn with
      | [], _ => simpa [keepBest] using ih'
      | [_], _ => simpa [keepBest] using ih'
      | a :: b :: rest, hnn =>
        have hb : 0 ≤ b.distance := hnn _ (List.mem_cons_self _ _) b (by simp)
        have hmul : r1 * b.distance ≤ r2 * b.distance :=
          mul_le_mul_of_nonneg_right hle hb
        by_cases h1 : a.distance < r1 * b.distance
        · have h2 : a.distance < r2 * b.distance := lt_of_lt_of_le h1 hmul
          simpa [keepBest, h1, h2] using ih'
        · by_cases h2 : a.distance < r2 * b.distance
          · simpa [keepBest, h1, h2] using ih'.cons a
          · simpa [keepBest, h1, h2] using ih'
  · refine ⟨[[⟨0, 0, 0, -2⟩, ⟨0, 1, 0, -1⟩]], 1, 3, by norm_num, ?_⟩
    norm_num [ratio_test_cons, ratio_test_nil, keepBest]

/-- Witness for C9: the entry with distances `[1, 2]` is kept at ratio 0.75 and
still kept at ratio 0.9. -/
theorem ratio_test_mono_ratio_witness :
    NonnegDistances [[⟨0, 0, 0, 1⟩, ⟨0, 1, 0, 2⟩]] ∧ (3 / 4 : ℚ) ≤ 9 / 10
      ∧ (ratio_test [[⟨0, 0, 0, 1⟩, ⟨0, 1, 0, 2⟩]] (3 / 4)).Sublist
          (ratio_test [[⟨0, 0, 0, 1⟩, ⟨0, 1, 0, 2⟩]] (9 / 10)) :=
  have hnn : NonnegDistances [[⟨0, 0, 0, 1⟩, ⟨0, 1, 0, 2⟩]] := by
    intro e he c hc
    simp only [List.mem_singleton] at he
    subst he
    simp only [List.mem_cons, List.mem_singleton, List.not_mem_nil, or_false] at hc
    rcases hc with rfl | rfl <;> norm_num
  ⟨hnn, by norm_num, ratio_test_mono_ratio.1 _ _ _ hnn (by norm_num)⟩

/-- C10: for a ratio `0 ≤ r ≤ 1` and non-negative candidate distances (sorted or
not), every match returned by `ratio_test` is the first candidate of an entry of
the input whose first distance is strictly below its second and whose second
distance is strictly positive; hence an entry whose first two candidates tie
contributes nothing; and for `r ≤ 0` the output is empty. -/
theorem ratio_test_accepts_strictly_closer (ms : List (List DMatch)) (r : ℚ)
    (hnn : NonnegDistances ms) :
    (0 ≤ r → r ≤ 1 → ∀ m ∈ ratio_test ms r,
        ∃ (i : Nat) (b : DMatch) (rest : List DMatch),
          ms[i]? = some (m :: b :: rest) ∧ m.distance < b.distance ∧ 0 < b.distance)
      ∧ (0 ≤ r → r ≤ 1 → ∀ (pre post : List (List DMatch)) (a b : DMatch)
          (rest : List DMatch), ms = pre ++ (a :: b :: rest) :: post →
          a.distance = b.distance →
          ratio_test ms r = ratio_test pre r ++ ratio_test post r)
      ∧ (r ≤ 0 → ratio_test ms r = []) := by
  have key : ∀ (a b : DMatch), 0 ≤ a.distance → 0 ≤ b.distance → 0 ≤ r → r ≤ 1 →
      a.distance < r * b.distance → a.distance < b.distance ∧ 0 < b.distance := by
    intro a b ha hb _ h1 hlt
    have hle : r * b.distance ≤ b.distance := by
      calc r * b.distance ≤ 1 * b.distance := mul_le_mul_of_nonneg_right h1 hb
        _ = b.distance := one_mul _
    have hab : a.distance < b.distance := lt_of_lt_of_le hlt hle
    exact ⟨hab, lt_of_le_of_lt ha hab⟩
  refine ⟨?_, ?_, ?_⟩
  · intro h0 h1 m hm
    obtain ⟨e, he, b, rest, heq, hlt⟩ := mem_ratio_test hm
    obtain ⟨i, hi, hget⟩ := List.getElem_of_mem he
    have hm0 : 0 ≤ m.distance := hnn e he m (by simp [heq])
    have hb0 : 0 ≤ b.distance := hnn e he b (by simp [heq])
    obtain ⟨hab, hb⟩ := key m b hm0 hb0 h0 h1 hlt
    exact ⟨i, b, rest, by rw [List.getElem?_eq_getElem hi, hget, heq], hab, hb⟩
  · intro h0 h1 pre post a b rest hms hab
    have hmem : (a :: b :: rest) ∈ ms := by simp [hms]
    have ha0 : 0 ≤ a.distance := hnn _ hmem a (by simp)
    have hb0 : 0 ≤ b.distance := hnn _ hmem b (by simp)
    have hno : ¬ a.distance < r * b.distance := by
      intro hlt
      exact absurd hab (ne_of_lt (key a b ha0 hb0 h0 h1 hlt).1)
    rw [hms, ratio_test_append, ratio_test_cons]
    simp [keepBest, hno]
  · intro hr
    rw [ratio_test_eq_filterMap, List.filterMap_eq_nil_iff]
    intro e he
    match e, he with
    | [], _ => rfl
    | [_], _ => rfl
    | a :: b :: rest, he =>
      have ha0 : 0 ≤ a.distance := hnn _ he a (by simp)
      have hb0 : 0 ≤ b.distance := hnn _ he b (by simp)
      have hno : ¬ a.distance < r * b.distance := by
        have : r * b.distance ≤ 0 := mul_nonpos_of_nonpos_of_nonneg hr hb0
        exact not_lt.mpr (le_trans this ha0)
      simp [keepBest, hno]

/-- Witness for C10: at ratio 0.75 the input `[[1, 2]]` has non-negative
distances, and every returned match is strictly closer than a positive second
candidate. -/
theorem ratio_test_accepts_strictly_closer_witness :
    NonnegDistances [[⟨0, 0, 0, 1⟩, ⟨0, 1, 0, 2⟩]]
      ∧ ∀ m ∈ ratio_test [[⟨0, 0, 0, 1⟩, ⟨0, 1, 0, 2⟩]] (3 / 4),
          ∃ (i : Nat) (b : DMatch) (rest : List DMatch),
            [[(⟨0, 0, 0, 1⟩ : DMatch), ⟨0, 1, 0, 2⟩]][i]? = some (m :: b :: rest)
              ∧ m.distance < b.distance ∧ 0 < b.distance :=
  have hnn : NonnegDistances [[⟨0, 0, 0, 1⟩, ⟨0, 1, 0, 2⟩]] := by
    intro e he c hc
    simp only [List.mem_singleton] at he
    subst he
    simp only [List.mem_cons, List.mem_singleton, List.not_mem_nil, or_false] at hc
    rcases hc with rfl | rfl <;> norm_num
  ⟨hnn, (ratio_test_accepts_strictly_closer _ (3 / 4) hnn).1 (by norm_num) (by norm_num)⟩

/-! ## Auxiliary lemmas on the sample loop -/

theorem processSample_of_few (w : World) (tkp : List KeyPoint) (tdesc : Descriptors)
    (st : LoopState) (s : SampleData)
    (hfew : (good_matches_of w tdesc s).length < 4) :
    processSample w tkp tdesc st s
      = { st with trace := st.trace ++ skipEvents w tdesc s } := by
  unfold good_matches_of at hfew
  unfold processSample skipEvents good_matches_of
  by_cases hempty : (s.descriptors.isEmpty || tdesc.isEmpty) = true
  · simp only [hempty, if_true]
  · simp only [hempty, if_false, hfew, if_true, Bool.false_eq_true]
    simp

theorem processSamples_of_few (w : World) (tkp : List KeyPoint) (tdesc : Descriptors)
    (samples : List SampleData)
    (hfew : ∀ s ∈ samples, (good_matches_of w tdesc s).length < 4) (st : LoopState) :
    (processSamples w tkp tdesc samples st).imgMatches = st.imgMatches
      ∧ (processSamples w tkp tdesc samples st).any_matches = st.any_matches := by
  induction samples generalizing st with
  | nil => exact ⟨rfl, rfl⟩
  | cons s rest ih =>
    rw [processSamples, processSample_of_few w tkp tdesc st s (hfew s (by simp))]
    exact ih (fun s' hs' => hfew s' (List.mem_cons_of_mem _ hs')) _

theorem processSample_of_fit (w : World) (tkp : List KeyPoint) (tdesc : Descriptors)
    (st : LoopState) (s : SampleData) (H : Homography)
    (hd : s.descriptors ≠ []) (ht : tdesc ≠ [])
    (hgood : 4 ≤ (good_matches_of w tdesc s).length)
    (hH : homography_of w tkp tdesc s = some H) :
    (processSample w tkp tdesc st s).imgMatches
        = (if contourArea (perspectiveTransform w (corners_sample s) H) < 1000 then
            st.imgMatches
          else st.imgMatches ++ drawQuad (perspectiveTransform w (corners_sample s) H) ++
            [.putText s.name
              (text_pos w s.name (perspectiveTransform w (corners_sample s) H))])
      ∧ (processSample w tkp tdesc st s).any_matches
        = (if contourArea (perspectiveTransform w (corners_sample s) H) < 1000 then
            st.any_matches else true)
      ∧ (contourArea (perspectiveTransform w (corners_sample s) H) < 1000 →
          (processSample w tkp tdesc st s).trace.getLast?
            = some (.out (.areaTooSmall s.name))) := by
  unfold good_matches_of at hgood
  unfold homography_of good_matches_of at hH
  have hempty : (s.descriptors.isEmpty || tdesc.isEmpty) = false := by
    cases hs : s.descriptors with
    | nil => exact absurd hs hd
    | cons _ _ =>
      cases htd : tdesc with
      | nil => exact absurd htd ht
      | cons _ _ => rfl
  have hnot : ¬ (ratio_test (w.knnMatch s.descriptors tdesc) (3 / 4)).length < 4 := by
    omega
  unfold processSample
  simp only [hempty, hnot, if_false, Bool.false_eq_true, hH]
  by_cases ha : contourArea (perspectiveTransform w (corners_sample s) H) < 1000
  · simp [ha]
  · simp [ha]

theorem foldl_add_eq (l : List Point2f) (acc : Point2f) :
    l.foldl Point2f.add acc
      = ⟨acc.x + (l.map Point2f.x).sum, acc.y + (l.map Point2f.y).sum⟩ := by
  induction l generalizing acc with
  | nil => simp
  | cons p ps ih => simp [ih, Point2f.add, add_assoc]

theorem center_perm {l l' : List Point2f} (h : l.Perm l') : center l = center l' := by
  unfold center
  rw [foldl_add_eq, foldl_add_eq, (h.map Point2f.x).sum_eq, (h.map Point2f.y).sum_eq,
    h.length_eq]

/-! ## Evaluation of the example worlds -/

theorem demo_good_matches (tdesc : Descriptors) :
    good_matches_of demoWorld tdesc demoSample
      = [⟨0, 0, 0, 1⟩, ⟨1, 1, 0, 1⟩, ⟨2, 2, 0, 1⟩, ⟨3, 3, 0, 1⟩] := by
  norm_num [good_matches_of, demoWorld, ratio_test_cons, ratio_test_nil, keepBest]

theorem demo_homography (tkp : List KeyPoint) (tdesc : Descriptors) :
    homography_of demoWorld tkp tdesc demoSample
      = some [[1, 0, 0], [0, 1, 0], [0, 0, 1]] := by
  simp [homography_of, demoWorld]

theorem demo_corners (H : Homography) :
    perspectiveTransform demoWorld (corners_sample demoSample) H
      = [⟨0, 0⟩, ⟨40, 0⟩, ⟨40, 25⟩, ⟨0, 25⟩] := by
  simp [perspectiveTransform, corners_sample, demoWorld, demoSample]

theorem demo_area (H : Homography) :
    contourArea (perspectiveTransform demoWorld (corners_sample demoSample) H) = 1000 := by
  rw [demo_corners]
  norm_num [contourArea, contourAreaSum]

theorem ambiguous_good_matches (tdesc : Descriptors) (s : SampleData) :
    good_matches_of ambiguousWorld tdesc s = [] := by
  norm_num [good_matches_of, ambiguousWorld, ratio_test_cons, ratio_test_nil, keepBest]

theorem ambiguous_loaded :
    (loadSamples ambiguousWorld ambiguousWorld.dirEntries [] []).1 = [demoSample] := by
  simp [loadSamples, ambiguousWorld, demoWorld, demoSample]

/-! ## The sample loop of `main` -/

/-- C5: for a sample whose filtered match list (ratio 0.75) has fewer than 4
matches, the loop body changes neither the drawn image nor `any_matches`, the
events it adds contain no call of the homography fit and no projection, its last
event is one of the two skip messages, and the loop goes on with the next
sample from that state. -/
theorem processSample_few_matches_skips (w : World) (tkp : List KeyPoint)
    (tdesc : Descriptors) (st : LoopState) (s : SampleData)
    (hfew : (good_matches_of w tdesc s).length < 4) :
    ∃ evs : List Event,
      processSample w tkp tdesc st s = { st with trace := st.trace ++ evs }
        ∧ (∀ src dst, Event.findHomography src dst ∉ evs)
        ∧ (∀ src H, Event.perspectiveTransform src H ∉ evs)
        ∧ (evs.getLast? = some (.out (.skipping s.name))
            ∨ evs.getLast? = some (.out (.notEnough s.name)))
        ∧ ∀ rest, processSamples w tkp tdesc (s :: rest) st
            = processSamples w tkp tdesc rest { st with trace := st.trace ++ evs } := by
  refine ⟨skipEvents w tdesc s, processSample_of_few w tkp tdesc st s hfew, ?_, ?_, ?_, ?_⟩
  · intro src dst
    unfold skipEvents
    split <;> simp
  · intro src H
    unfold skipEvents
    split <;> simp
  · unfold skipEvents
    split
    · left; rfl
    · right; rfl
  · intro rest
    rw [processSamples, processSample_of_few w tkp tdesc st s hfew]

/-- Witness for C5: in `ambiguousWorld` the sample has no good match. -/
theorem processSample_few_matches_skips_witness :
    (good_matches_of ambiguousWorld [[0]] demoSample).length < 4
      ∧ ∃ evs : List Event,
        processSample ambiguousWorld [] [[0]] (initialState []) demoSample
            = { initialState [] with trace := (initialState []).trace ++ evs }
          ∧ (∀ src dst, Event.findHomography src dst ∉ evs)
          ∧ (∀ src H, Event.perspectiveTransform src H ∉ evs)
          ∧ (evs.getLast? = some (.out (.skipping demoSample.name))
              ∨ evs.getLast? = some (.out (.notEnough demoSample.name)))
          ∧ ∀ rest, processSamples ambiguousWorld [] [[0]] (demoSample :: rest)
                (initialState [])
              = processSamples ambiguousWorld [] [[0]] rest
                  { initialState [] with trace := (initialState []).trace ++ evs } :=
  have h : (good_matches_of ambiguousWorld [[0]] demoSample).length < 4 := by
    rw [ambiguous_good_matches]; decide
  ⟨h, processSample_few_matches_skips ambiguousWorld [] [[0]] (initialState [])
    demoSample h⟩

/-- C6: when the loop body reaches the geometric check of a sample (descriptors
present, at least 4 good matches, a transform fitted), it rejects the sample,
leaving the image and `any_matches` unchanged and reporting the area as too
small, when the area of the projected quadrilateral is strictly below 1000; it
accepts it, drawing the quadrilateral and the label and setting `any_matches`,
when the area is at least 1000; and the image is left unchanged exactly when the
area is strictly below 1000. -/
theorem processSample_area_threshold (w : World) (tkp : List KeyPoint)
    (tdesc : Descriptors) (st : LoopState) (s : SampleData) (H : Homography)
    (hd : s.descriptors ≠ []) (ht : tdesc ≠ [])
    (hgood : 4 ≤ (good_matches_of w tdesc s).length)
    (hH : homography_of w tkp tdesc s = some H) :
    (contourArea (perspectiveTransform w (corners_sample s) H) < 1000 →
        (processSample w tkp tdesc st s).imgMatches = st.imgMatches
          ∧ (processSample w tkp tdesc st s).any_matches = st.any_matches
          ∧ (processSample w tkp tdesc st s).trace.getLast?
              = some (.out (.areaTooSmall s.name)))
      ∧ (1000 ≤ contourArea (perspectiveTransform w (corners_sample s) H) →
          (processSample w tkp tdesc st s).imgMatches
              = st.imgMatches ++ drawQuad (perspectiveTransform w (corners_sample s) H) ++
                [.putText s.name
                  (text_pos w s.name (perspectiveTransform w (corners_sample s) H))]
            ∧ (processSample w tkp tdesc st s).any_matches = true)
      ∧ ((processSample w tkp tdesc st s).imgMatches = st.imgMatches
          ↔ contourArea (perspectiveTransform w (corners_sample s) H) < 1000) := by
  obtain ⟨himg, hany, hlast⟩ := processSample_of_fit w tkp tdesc st s H hd ht hgood hH
  refine ⟨?_, ?_, ?_⟩
  · intro ha
    exact ⟨by rw [himg, if_pos ha], by rw [hany, if_pos ha], hlast ha⟩
  · intro ha
    have hna : ¬ contourArea (perspectiveTransform w (corners_sample s) H) < 1000 :=
      not_lt.mpr ha
    exact ⟨by rw [himg, if_neg hna], by rw [hany, if_neg hna]⟩
  · constructor
    · intro heq
      by_contra hna
      rw [himg, if_neg hna] at heq
      have hlen := congrArg List.length heq
      simp at hlen
    · intro ha
      rw [himg, if_pos ha]

/-- Witness for C6: in `demoWorld` the projected quadrilateral is the 40 x 25
rectangle, of area exactly 1000, and the sample is accepted. -/
theorem processSample_area_threshold_witness :
    contourArea (perspectiveTransform demoWorld (corners_sample demoSample)
        [[1, 0, 0], [0, 1, 0], [0, 0, 1]]) = 1000
      ∧ (processSample demoWorld [] [[0]] (initialState []) demoSample).any_matches = true
      ∧ (processSample demoWorld [] [[0]] (initialState []) demoSample).imgMatches
          ≠ (initialState []).imgMatches :=
  have hthm := processSample_area_threshold demoWorld [] [[0]] (initialState []) demoSample
    [[1, 0, 0], [0, 1, 0], [0, 0, 1]] (by simp [demoSample]) (by simp)
    (by rw [demo_good_matches]; decide) (demo_homography [] [[0]])
  ⟨demo_area _, (hthm.2.1 (by rw [demo_area])).2,
    fun heq => absurd (hthm.2.2.1 heq) (by rw [demo_area]; norm_num)⟩

/-- C7: in a run where the directory exists, at least one sample is loaded, the
target is readable and every loaded sample has fewer than 4 good matches after
the ratio test, the sample loop ends with nothing drawn and `any_matches` false,
`main` returns status 0, shows the image with nothing drawn on it and reports that
no match was found. -/
theorem main_all_few_matches (w : World) (target : Image)
    (hdir : w.dirExists = true)
    (hsamples : (loadSamples w w.dirEntries [] []).1 ≠ [])
    (htarget : w.imread "./target.png" = some target)
    (hfew : ∀ s ∈ (loadSamples w w.dirEntries [] []).1,
      (good_matches_of w (w.detectAndCompute target).2 s).length < 4) :
    (∀ tr : List Event,
        (processSamples w (w.detectAndCompute target).1 (w.detectAndCompute target).2
            (loadSamples w w.dirEntries [] []).1 (initialState tr)).imgMatches = []
          ∧ (processSamples w (w.detectAndCompute target).1 (w.detectAndCompute target).2
            (loadSamples w w.dirEntries [] []).1 (initialState tr)).any_matches = false)
      ∧ (main w).status = 0
      ∧ Event.imshow [] ∈ (main w).trace
      ∧ Event.out .noMatchesFound ∈ (main w).trace := by
  have hloop : ∀ tr : List Event,
      (processSamples w (w.detectAndCompute target).1 (w.detectAndCompute target).2
          (loadSamples w w.dirEntries [] []).1 (initialState tr)).imgMatches = []
        ∧ (processSamples w (w.detectAndCompute target).1 (w.detectAndCompute target).2
          (loadSamples w w.dirEntries [] []).1 (initialState tr)).any_matches = false :=
    fun tr => processSamples_of_few w _ _ _ hfew (initialState tr)
  have hne : (loadSamples w w.dirEntries [] []).1.isEmpty = false := by
    cases hl : (loadSamples w w.dirEntries [] []).1 with
    | nil => exact absurd hl hsamples
    | cons _ _ => rfl
  refine ⟨hloop, ?_, ?_, ?_⟩
  · unfold main
    simp [hdir, hne, htarget]
  · unfold main
    simp [hdir, hne, htarget, (hloop _).1]
  · unfold main
    simp [hdir, hne, htarget, (hloop _).2]

/-- Witness for C7: `ambiguousWorld` loads one sample, whose matches are all
rejected by the ratio test. -/
theorem main_all_few_matches_witness :
    (loadSamples ambiguousWorld ambiguousWorld.dirEntries [] []).1 ≠ []
      ∧ (main ambiguousWorld).status = 0
      ∧ Event.imshow [] ∈ (main ambiguousWorld).trace
      ∧ Event.out .noMatchesFound ∈ (main ambiguousWorld).trace :=
  have hs : (loadSamples ambiguousWorld ambiguousWorld.dirEntries [] []).1 ≠ [] := by
    rw [ambiguous_loaded]; simp
  ⟨hs, (main_all_few_matches ambiguousWorld ⟨100, 100⟩ rfl hs rfl
    (fun s _ => by rw [ambiguous_good_matches]; decide)).2⟩

/-- C8: for every accepted detection the projected corners are four points
`p0, p1, p2, p3`, the anchor `center` computed from them is their arithmetic mean
`((x0+x1+x2+x3)/4, (y0+y1+y2+y3)/4)`, it is the same for every reordering of the
four corners, and the label is drawn at that anchor minus half the text size. -/
theorem center_is_mean_of_corners (w : World) (tkp : List KeyPoint)
    (tdesc : Descriptors) (st : LoopState) (s : SampleData) (H : Homography)
    (hd : s.descriptors ≠ []) (ht : tdesc ≠ [])
    (hgood : 4 ≤ (good_matches_of w tdesc s).length)
    (hH : homography_of w tkp tdesc s = some H)
    (harea : 1000 ≤ contourArea (perspectiveTransform w (corners_sample s) H)) :
    ∃ p0 p1 p2 p3 : Point2f,
      perspectiveTransform w (corners_sample s) H = [p0, p1, p2, p3]
        ∧ center [p0, p1, p2, p3]
            = ⟨(p0.x + p1.x + p2.x + p3.x) / 4, (p0.y + p1.y + p2.y + p3.y) / 4⟩
        ∧ (∀ l : List Point2f, l.Perm [p0, p1, p2, p3] →
            center l = center [p0, p1, p2, p3])
        ∧ (processSample w tkp tdesc st s).imgMatches.getLast?
            = some (.putText s.name
                ((center [p0, p1, p2, p3]).sub
                  ⟨((w.getTextSize s.name).1 : ℚ) / 2, ((w.getTextSize s.name).2 : ℚ) / 2⟩)) := by
  obtain ⟨himg, -, -⟩ := processSample_of_fit w tkp tdesc st s H hd ht hgood hH
  have hna : ¬ contourArea (perspectiveTransform w (corners_sample s) H) < 1000 :=
    not_lt.mpr harea
  rw [if_neg hna] at himg
  have hq : perspectiveTransform w (corners_sample s) H
      = [w.projectPoint H ⟨0, 0⟩, w.projectPoint H ⟨s.image.cols, 0⟩,
         w.projectPoint H ⟨s.image.cols, s.image.rows⟩,
         w.projectPoint H ⟨0, s.image.rows⟩] := by
    simp [perspectiveTransform, corners_sample]
  refine ⟨_, _, _, _, hq, ?_, fun l hl => center_perm hl, ?_⟩
  · unfold center
    rw [foldl_add_eq]
    simp only [Point2f.scale, List.map_cons, List.map_nil, List.sum_cons, List.sum_nil,
      List.length_cons, List.length_nil]
    congr 1 <;> · push_cast; ring
  · rw [himg, hq]
    simp [text_pos]

/-- Witness for C8: in `demoWorld` the accepted quadrilateral is the 40 x 25
rectangle and the anchor is `(20, 12.5)`. -/
theorem center_is_mean_of_corners_witness :
    1000 ≤ contourArea (perspectiveTransform demoWorld (corners_sample demoSample)
        [[1, 0, 0], [0, 1, 0], [0, 0, 1]])
      ∧ ∃ p0 p1 p2 p3 : Point2f,
        perspectiveTransform demoWorld (corners_sample demoSample)
            [[1, 0, 0], [0, 1, 0], [0, 0, 1]] = [p0, p1, p2, p3]
          ∧ center [p0, p1, p2, p3]
              = ⟨(p0.x + p1.x + p2.x + p3.x) / 4, (p0.y + p1.y + p2.y + p3.y) / 4⟩
          ∧ (∀ l : List Point2f, l.Perm [p0, p1, p2, p3] →
              center l = center [p0, p1, p2, p3])
          ∧ (processSample demoWorld [] [[0]] (initialState []) demoSample).imgMatches.getLast?
              = some (.putText demoSample.name
                  ((center [p0, p1, p2, p3]).sub
                    ⟨((demoWorld.getTextSize demoSample.name).1 : ℚ) / 2,
                     ((demoWorld.getTextSize demoSample.name).2 : ℚ) / 2⟩)) :=
  have harea : 1000 ≤ contourArea (perspectiveTransform demoWorld
      (corners_sample demoSample) [[1, 0, 0], [0, 1, 0], [0, 0, 1]]) := by
    rw [demo_area]
  ⟨harea, center_is_mean_of_corners demoWorld [] [[0]] (initialState []) demoSample
    [[1, 0, 0], [0, 1, 0], [0, 0, 1]] (by simp [demoSample]) (by simp)
    (by rw [demo_good_matches]; decide) (demo_homography [] [[0]]) harea⟩

end Vir
